/-
Verification of the tracing-etw event-encoding engine against its
natural-language specification.

The Lean definitions below are shallow embeddings of the Rust sources:
  * src/values.rs          — ValueTypes, FieldValueIndex, ValueVisitor::update_value
  * src/layer.rs           — on_new_span field-table allocation and activity ids
  * src/native/etw.rs      — Win32SystemTime, PayloadFieldVisitor, write_record
  * src/etw.rs             — add_field_value (older encoder variant)
  * src/native/user_events.rs — eventheader field encoding, enabled/find_set
  * src/native/common_schema/etw_cs.rs and user_events_cs.rs — PartC builder
  * src/providerwrapper.rs — PROVIDER_CACHE (registry; algorithm per spec §4.4)
-/
import Mathlib

namespace TracingEtw

/-! ### Little-endian byte encoding

`u64::to_le_bytes` / `u128::to_le_bytes` produce the little-endian byte
representation; `natToLEBytes n x` is the `n`-byte little-endian encoding of
`x`, and `leBytesToNat` decodes it. -/

def natToLEBytes : Nat → Nat → List Nat
  | 0, _ => []
  | n + 1, x => (x % 256) :: natToLEBytes n (x / 256)

def leBytesToNat (bs : List Nat) : Nat :=
  bs.foldr (fun b acc => b + 256 * acc) 0

theorem length_natToLEBytes (n x : Nat) : (natToLEBytes n x).length = n := by
  induction n generalizing x with
  | zero => rfl
  | succ n ih => simp [natToLEBytes, ih]

theorem leBytesToNat_natToLEBytes (n x : Nat) :
    leBytesToNat (natToLEBytes n x) = x % 256 ^ n := by
  induction n generalizing x with
  | zero => simp [natToLEBytes, leBytesToNat, Nat.mod_one]
  | succ n ih =>
    simp only [natToLEBytes, leBytesToNat, List.foldr_cons]
    have ih' : leBytesToNat (natToLEBytes n (x / 256)) = x / 256 % 256 ^ n := ih (x / 256)
    simp only [leBytesToNat] at ih'
    rw [ih', pow_succ, mul_comm (256 ^ n) 256]
    have hP : 0 < 256 ^ n := Nat.pos_pow_of_pos n (by omega)
    have h2 : x / 256 % 256 ^ n < 256 ^ n := Nat.mod_lt _ hP
    have h1 : x = x % 256 + 256 * (x / 256 % 256 ^ n)
        + 256 * 256 ^ n * (x / 256 / 256 ^ n) := by
      calc x = 256 * (x / 256) + x % 256 := by omega
        _ = x % 256 + 256 * (x / 256 % 256 ^ n) + 256 * 256 ^ n * (x / 256 / 256 ^ n) := by
              conv_lhs => rw [← Nat.div_add_mod (x / 256) (256 ^ n)]
              ring
    have h3 : (x % 256 + 256 * (x / 256 % 256 ^ n)) % (256 * 256 ^ n)
        = x % 256 + 256 * (x / 256 % 256 ^ n) := Nat.mod_eq_of_lt (by omega)
    conv_rhs => rw [h1]
    rw [Nat.add_mul_mod_self_left, h3]

theorem natToLEBytes_take (k n x : Nat) (h : k ≤ n) :
    (natToLEBytes n x).take k = natToLEBytes k x := by
  induction k generalizing n x with
  | zero => simp [natToLEBytes]
  | succ k ih =>
    cases n with
    | zero => omega
    | succ n =>
      simp only [natToLEBytes, List.take_succ_cons]
      rw [ih n (x / 256) (by omega)]

theorem natToLEBytes_drop (k n x : Nat) (h : k ≤ n) :
    (natToLEBytes n x).drop k = natToLEBytes (n - k) (x / 256 ^ k) := by
  induction k generalizing n x with
  | zero => simp
  | succ k ih =>
    cases n with
    | zero => omega
    | succ n =>
      simp only [natToLEBytes, List.drop_succ_cons]
      rw [ih n (x / 256) (by omega)]
      congr 1
      · omega
      · rw [Nat.div_div_eq_div_mul, pow_succ]
        ring_nf

/-! ### Activity identifiers (src/layer.rs `on_new_span`,
src/native/etw.rs / src/native/user_events.rs `write_record`)

An activity id is 16 bytes.  The code starts from a base buffer (the global
activity seed in `on_new_span` / `user_events::write_record`, an all-zero
buffer in `native/etw.rs::write_record`), copies the 64-bit span id
little-endian into bytes 8..16, and sets byte 0 to the presence flag. -/

/-- `data.related_activity_id[0] = if parent != 0 { copy parent LE into bytes
8..16; 1 } else { 0 }` — shared shape of `on_new_span` and both
`write_record`s. -/
def mkRelatedActivityId (base : List Nat) (parent : Nat) : List Nat :=
  if parent ≠ 0 then (base.take 8 ++ natToLEBytes 8 parent).set 0 1
  else base.set 0 0

/-- `on_new_span`: `activity_id` gets the span's own id and presence byte 1
unconditionally. -/
def mkSpanActivityId (base : List Nat) (spanId : Nat) : List Nat :=
  (base.take 8 ++ natToLEBytes 8 spanId).set 0 1

/-- `native/etw.rs::write_record` builds the event's activity id from an
all-zero buffer and the current span id, presence byte only when nonzero. -/
def writeRecordActivityId (current : Nat) : List Nat :=
  let base := List.replicate 16 0
  if current ≠ 0 then (base.take 8 ++ natToLEBytes 8 current).set 0 1
  else base.set 0 0

theorem length_mkRelatedActivityId (base : List Nat) (p : Nat) (h : base.length = 16) :
    (mkRelatedActivityId base p).length = 16 := by
  unfold mkRelatedActivityId
  split <;> simp [List.length_set, length_natToLEBytes, List.length_take, h]

/-- **C1.** For every span creation with parent span id `p` (and likewise for
the related id built for a standalone event), the RelatedActivityId has
presence byte 0 when `p = 0`; otherwise presence byte 1 and bytes 8..16
little-endian-decode back to `p`. -/
theorem relatedActivityId_presence_bytes (base : List Nat) (s p : Nat)
    (_hs : s ≠ 0) (hlen : base.length = 16) (hp : p < 2 ^ 64) :
    (p = 0 → (mkRelatedActivityId base p).getD 0 0 = 0) ∧
    (p ≠ 0 → (mkRelatedActivityId base p).getD 0 0 = 1 ∧
      leBytesToNat (((mkRelatedActivityId base p).drop 8).take 8) = p) := by
  constructor
  · intro hp0
    subst hp0
    have h0 : 0 < base.length := by omega
    simp [mkRelatedActivityId, List.getD, List.getElem?_set_self h0]
  · intro hpne
    have htake : (base.take 8).length = 8 := by simp [List.length_take, hlen]
    have hcons : ∃ b rest, base.take 8 = b :: rest := by
      cases hb : base.take 8 with
      | nil => rw [hb] at htake; simp at htake
      | cons b rest => exact ⟨b, rest, rfl⟩
    obtain ⟨b, rest, hb⟩ := hcons
    have hrid : mkRelatedActivityId base p
        = (1 :: rest) ++ natToLEBytes 8 p := by
      unfold mkRelatedActivityId
      rw [if_pos hpne, hb]
      rfl
    refine ⟨by rw [hrid]; rfl, ?_⟩
    have hrest : rest.length = 7 := by
      have := htake
      rw [hb] at this
      simpa using this
    have hdrop : ((1 :: rest) ++ natToLEBytes 8 p).drop 8 = natToLEBytes 8 p := by
      rw [List.drop_append_of_le_length (by simp [hrest])]
      simp [hrest]
    rw [hrid, hdrop, List.take_of_length_le (by simp [length_natToLEBytes]),
      leBytesToNat_natToLEBytes, Nat.mod_eq_of_lt (by simpa using hp)]

theorem relatedActivityId_presence_bytes_witness :
    (5 : Nat) ≠ 0 ∧ (List.replicate 16 0).length = 16 ∧ (7 : Nat) < 2 ^ 64 ∧
    (((7 : Nat) = 0 → (mkRelatedActivityId (List.replicate 16 0) 7).getD 0 0 = 0) ∧
     ((7 : Nat) ≠ 0 → (mkRelatedActivityId (List.replicate 16 0) 7).getD 0 0 = 1 ∧
       leBytesToNat (((mkRelatedActivityId (List.replicate 16 0) 7).drop 8).take 8) = 7)) :=
  ⟨by decide, by decide, by norm_num,
    relatedActivityId_presence_bytes (List.replicate 16 0) 5 7
      (by decide) (by decide) (by norm_num)⟩

/-! ### Value model (src/values.rs `ValueTypes`) -/

/-- `ValueTypes` from src/values.rs.  `u64`/`u128` are modelled as `Nat`,
`i64`/`i128` as `Int` (with explicit two's-complement conversion where the
code reinterprets bytes). -/
inductive ValueTypes where
  | none
  | v_u64 (u : Nat)
  | v_i64 (i : Int)
  | v_u128 (u : Nat)
  | v_i128 (i : Int)
  | v_f64 (f : Float)
  | v_bool (b : Bool)
  | v_str (s : String)
  | v_char (c : Char)

/-! ### TraceLogging event-builder operations

`EbOp` records a call on `tracelogging_dynamic::EventBuilder` (the final
`field_tag` argument is `0` at every call site and is omitted). -/

inductive OutType where
  | default | unsigned | signed | hex | utf8 | string | boolean | dateTimeUtc
  deriving DecidableEq

inductive EbOp where
  | add_u64 (name : String) (v : Nat) (out : OutType)
  | add_i64 (name : String) (v : Int) (out : OutType)
  | add_u64_sequence (name : String) (vs : List Nat) (out : OutType)
  | add_binary (name : String) (bytes : List Nat) (out : OutType)
  | add_f64 (name : String) (v : Float) (out : OutType)
  | add_bool32 (name : String) (v : Int) (out : OutType)
  | add_str8 (name : String) (s : String) (out : OutType)
  | add_u8 (name : String) (v : Nat) (out : OutType)
  | add_u16 (name : String) (v : Nat) (out : OutType)
  | add_systemtime (name : String) (st : List Nat) (out : OutType)

/-- Two's-complement bit pattern of an `i128` (`i128::to_le_bytes` input). -/
def i128Bits (i : Int) : Nat := (i % (2 ^ 128 : Int)).toNat

/-- `u128::to_le_bytes` — 16 little-endian bytes. -/
def u128LEBytes (u : Nat) : List Nat := natToLEBytes 16 u

/-- `core::slice::from_raw_parts(&u.to_le_bytes() as *const u64, 2)`:
the 16 little-endian bytes reinterpreted in place as two u64 words
(little-endian host). -/
def u128WordsLE (u : Nat) : List Nat :=
  [leBytesToNat ((u128LEBytes u).take 8), leBytesToNat ((u128LEBytes u).drop 8)]

/-- src/etw.rs `add_field_value` (lines 82–108): the older self-describing
encoder variant.  128-bit values go out as a 2-element u64 sequence tagged
`OutType::Hex`. -/
def add_field_value (name : String) (v : ValueTypes) : List EbOp :=
  match v with
  | .none => []
  | .v_u64 u => [.add_u64 name u .unsigned]
  | .v_i64 i => [.add_i64 name i .signed]
  | .v_u128 u => [.add_u64_sequence name (u128WordsLE u) .hex]
  | .v_i128 i => [.add_u64_sequence name (u128WordsLE (i128Bits i)) .hex]
  | .v_f64 f => [.add_f64 name f .signed]
  | .v_bool b => [.add_bool32 name (if b then 1 else 0) .boolean]
  | .v_str s => [.add_str8 name s .string]
  | .v_char c => [.add_u8 name (c.toNat % 256) .string]

/-- src/native/etw.rs `PayloadFieldVisitor::add_field_value` (lines 47–86):
the current self-describing encoder.  128-bit values go out via
`add_binary(field, x.to_le_bytes(), OutType::Default, 0)`. -/
def payload_add_field_value (name : String) (v : ValueTypes) : List EbOp :=
  match v with
  | .none => []
  | .v_u64 u => [.add_u64 name u .default]
  | .v_i64 i => [.add_i64 name i .default]
  | .v_u128 u => [.add_binary name (u128LEBytes u) .default]
  | .v_i128 i => [.add_binary name (u128LEBytes (i128Bits i)) .default]
  | .v_f64 f => [.add_f64 name f .default]
  | .v_bool b => [.add_bool32 name (if b then 1 else 0) .default]
  | .v_str s => [.add_str8 name s .utf8]
  | .v_char c => [.add_u16 name (c.toNat % 65536) .string]

theorem i128Bits_lt (i : Int) : i128Bits i < 2 ^ 128 := by
  unfold i128Bits
  have h0 : (0 : Int) ≤ i % 2 ^ 128 := Int.emod_nonneg i (by positivity)
  have h1 : i % (2 ^ 128 : Int) < 2 ^ 128 := Int.emod_lt_of_pos i (by positivity)
  have h2 : ((i % (2 : Int) ^ 128).toNat : Int) < (2 : Int) ^ 128 := by
    rwa [Int.toNat_of_nonneg h0]
  exact_mod_cast h2

/-- **C4 counterexample.** The current self-describing encoder
(src/native/etw.rs) does not emit a `u128` as a 2-element u64 sequence
tagged hex: at value `1` it emits a 16-byte little-endian binary field. -/
theorem payload_u128_not_u64_hex_sequence :
    payload_add_field_value "x" (ValueTypes.v_u128 1)
      ≠ [EbOp.add_u64_sequence "x" [1, 0] OutType.hex] ∧
    payload_add_field_value "x" (ValueTypes.v_u128 1)
      = [EbOp.add_binary "x" [1, 0, 0, 0, 0, 0, 0, 0, 0, 0, 0, 0, 0, 0, 0, 0]
          OutType.default] := by
  constructor
  · simp [payload_add_field_value]
  · rfl

/-- **C4 (amended).** The older encoder variant (src/etw.rs) emits every
128-bit value as a 2-element 64-bit sequence tagged hex whose words are the
value's little-endian bytes reinterpreted in place (low word `u % 2^64`,
high word `u / 2^64`, with `i128` first converted to its two's-complement
bit pattern); the current variant (src/native/etw.rs) instead emits the 16
little-endian bytes as one binary field with the default out-type. -/
theorem encoder_128bit_encoding (name : String) (u : Nat) (i : Int)
    (hu : u < 2 ^ 128) :
    add_field_value name (.v_u128 u)
      = [.add_u64_sequence name [u % 2 ^ 64, u / 2 ^ 64] .hex] ∧
    add_field_value name (.v_i128 i)
      = [.add_u64_sequence name [i128Bits i % 2 ^ 64, i128Bits i / 2 ^ 64] .hex] ∧
    payload_add_field_value name (.v_u128 u)
      = [.add_binary name (natToLEBytes 16 u) .default] ∧
    payload_add_field_value name (.v_i128 i)
      = [.add_binary name (natToLEBytes 16 (i128Bits i)) .default] := by
  have words : ∀ x : Nat, x < 2 ^ 128 → u128WordsLE x = [x % 2 ^ 64, x / 2 ^ 64] := by
    intro x hx
    unfold u128WordsLE u128LEBytes
    rw [natToLEBytes_take 8 16 x (by omega), natToLEBytes_drop 8 16 x (by omega),
      leBytesToNat_natToLEBytes, leBytesToNat_natToLEBytes]
    have h1 : (256 : Nat) ^ 8 = 2 ^ 64 := by norm_num
    have h2 : x / 2 ^ 64 < 2 ^ 64 := by
      apply Nat.div_lt_of_lt_mul
      calc x < 2 ^ 128 := hx
        _ = 2 ^ 64 * 2 ^ 64 := by norm_num
    rw [h1, Nat.mod_eq_of_lt h2]
  refine ⟨?_, ?_, rfl, rfl⟩
  · simp [add_field_value, words u hu]
  · simp [add_field_value, words (i128Bits i) (i128Bits_lt i)]

theorem encoder_128bit_encoding_witness :
    (3 : Nat) < 2 ^ 128 ∧
    (add_field_value "f" (.v_u128 3)
        = [.add_u64_sequence "f" [3 % 2 ^ 64, 3 / 2 ^ 64] .hex] ∧
      add_field_value "f" (.v_i128 (-1))
        = [.add_u64_sequence "f" [i128Bits (-1) % 2 ^ 64, i128Bits (-1) / 2 ^ 64] .hex] ∧
      payload_add_field_value "f" (.v_u128 3)
        = [.add_binary "f" (natToLEBytes 16 3) .default] ∧
      payload_add_field_value "f" (.v_i128 (-1))
        = [.add_binary "f" (natToLEBytes 16 (i128Bits (-1))) .default]) :=
  ⟨by norm_num, encoder_128bit_encoding "f" 3 (-1) (by norm_num)⟩

/-! ### Win32SystemTime (src/native/etw.rs lines 16–33, src/etw.rs 18–35) -/

/-- `u16` truncation of an `i32` (`as u16`): the low 16 bits of the
two's-complement representation. -/
def i32AsU16 (y : Int) : Nat := (y % (65536 : Int)).toNat

/-- `Win32SystemTime::from`: the 8-slot `[u16; 8]` structure
`[year, month, 0, day, hour, minute, second, millisecond]`, each component
cast `as u16`, with a zero placeholder in slot 2 (between month and day). -/
def win32SystemTime (year : Int) (month day hour minute second nanosecond : Nat) :
    List Nat :=
  [i32AsU16 year, month % 65536, 0, day % 65536, hour % 65536, minute % 65536,
    second % 65536, (nanosecond / 1000000) % 65536]

/-- **C9.** The encoder's date-time field is the 8-slot structure
`[year, month, 0, day, hour, minute, second, millisecond]`: slot 2 is a zero
placeholder between month and day, and for in-range components the slots
carry the components unchanged (millisecond = nanosecond / 10^6). -/
theorem win32SystemTime_layout (year : Int) (month day hour minute second ns : Nat)
    (hy : 0 ≤ year) (hy2 : year < 65536) (hmo : month < 65536) (hd : day < 65536)
    (hh : hour < 65536) (hmi : minute < 65536) (hs : second < 65536)
    (hns : ns < 1000000000) :
    (win32SystemTime year month day hour minute second ns).length = 8 ∧
    (win32SystemTime year month day hour minute second ns).getD 2 99 = 0 ∧
    win32SystemTime year month day hour minute second ns
      = [year.toNat, month, 0, day, hour, minute, second, ns / 1000000] := by
  refine ⟨rfl, rfl, ?_⟩
  unfold win32SystemTime i32AsU16
  rw [Int.emod_eq_of_lt hy (by omega)]
  have hms : ns / 1000000 < 65536 := by omega
  rw [Nat.mod_eq_of_lt hmo, Nat.mod_eq_of_lt hd, Nat.mod_eq_of_lt hh,
    Nat.mod_eq_of_lt hmi, Nat.mod_eq_of_lt hs, Nat.mod_eq_of_lt hms]

theorem win32SystemTime_layout_witness :
    (0 : Int) ≤ 2024 ∧ (2024 : Int) < 65536 ∧ (10 : Nat) < 65536 ∧
    win32SystemTime 2024 10 12 13 14 15 250000000
      = [2024, 10, 0, 12, 13, 14, 15, 250] := by
  refine ⟨by norm_num, by norm_num, by norm_num, ?_⟩
  have h := win32SystemTime_layout 2024 10 12 13 14 15 250000000
    (by norm_num) (by norm_num) (by norm_num) (by norm_num) (by norm_num)
    (by norm_num) (by norm_num) (by norm_num)
  simpa using h.2.2

/-! ### EventHeader (user_events) builder operations
(src/native/user_events.rs lines 22–52) -/

inductive FieldFormat where
  | default | signedInt | float | boolean | stringUtf | time
  deriving DecidableEq

inductive UeOp where
  | add_value_u64 (name : String) (v : Nat) (fmt : FieldFormat)
  | add_value_i64 (name : String) (v : Int) (fmt : FieldFormat)
  | add_value_bytes (name : String) (bytes : List Nat) (fmt : FieldFormat)
  | add_value_f64 (name : String) (v : Float) (fmt : FieldFormat)
  | add_value_bool (name : String) (v : Bool) (fmt : FieldFormat)
  | add_str (name : String) (s : String) (fmt : FieldFormat)
  | add_value_char (name : String) (c : Char) (fmt : FieldFormat)

/-- `impl AddFieldAndValue for &mut eventheader_dynamic::EventBuilder`
(src/native/user_events.rs): the kernel-tracepoint field encoding. -/
def ue_add_field_value (name : String) (v : ValueTypes) : List UeOp :=
  match v with
  | .none => []
  | .v_u64 u => [.add_value_u64 name u .default]
  | .v_i64 i => [.add_value_i64 name i .signedInt]
  | .v_u128 u => [.add_value_bytes name (u128LEBytes u) .default]
  | .v_i128 i => [.add_value_bytes name (u128LEBytes (i128Bits i)) .default]
  | .v_f64 f => [.add_value_f64 name f .float]
  | .v_bool b => [.add_value_bool name b .boolean]
  | .v_str s => [.add_str name s .default]
  | .v_char c => [.add_value_char name c .stringUtf]

/-! ### Common Schema PartC field builders
(src/native/common_schema/etw_cs.rs lines 31–78 and
src/native/common_schema/user_events_cs.rs lines 29–46)

Both rename a field called `message` to `Body` and `assert!` that its value
is a string.  A failed assertion is a panic, modelled as `none`. -/

/-- The typed-field emission of `etw_cs.rs` after the rename (the per-variant
match inside its `add_field_value`). -/
def cs_etw_emit (name : String) (v : ValueTypes) : List EbOp :=
  match v with
  | .none => []
  | .v_u64 u => [.add_u64 name u .default]
  | .v_i64 i => [.add_i64 name i .default]
  | .v_u128 u => [.add_binary name (u128LEBytes u) .default]
  | .v_i128 i => [.add_binary name (u128LEBytes (i128Bits i)) .default]
  | .v_f64 f => [.add_f64 name f .default]
  | .v_bool b => [.add_bool32 name (if b then 1 else 0) .default]
  | .v_str s => [.add_str8 name s .utf8]
  | .v_char c => [.add_u16 name (c.toNat % 65536) .string]

/-- `CommonSchemaPartCBuilder::add_field_value` (etw_cs.rs): rename
`message` → `Body`, assert the value is a string, then emit. -/
def cs_etw_add_field_value (name : String) (v : ValueTypes) : Option (List EbOp) :=
  if name = "message" then
    match v with
    | .v_str s => some (cs_etw_emit "Body" (.v_str s))
    | _ => Option.none
  else some (cs_etw_emit name v)

/-- `CommonSchemaPartCBuilder::add_field_value` (user_events_cs.rs): rename
`message` → `Body`, assert the value is a string, then delegate to the
eventheader builder's `add_field_value`. -/
def cs_ue_add_field_value (name : String) (v : ValueTypes) : Option (List UeOp) :=
  if name = "message" then
    match v with
    | .v_str s => some (ue_add_field_value "Body" (.v_str s))
    | _ => Option.none
  else some (ue_add_field_value name v)

/-- **C5.** In both Common Schema overlays, a field named `message` whose
value is a string is emitted under the wire name `Body` with the same string
value; any other field name passes through unchanged; a non-string value
under the name `message` fails the assertion (modelled as `none`). -/
theorem commonSchema_message_rename (name : String) (v : ValueTypes) :
    (∀ s, cs_etw_add_field_value "message" (.v_str s)
        = some [.add_str8 "Body" s .utf8] ∧
      cs_ue_add_field_value "message" (.v_str s)
        = some [.add_str "Body" s .default]) ∧
    (name ≠ "message" →
      cs_etw_add_field_value name v = some (cs_etw_emit name v) ∧
      cs_ue_add_field_value name v = some (ue_add_field_value name v)) ∧
    ((∀ s, v ≠ .v_str s) →
      cs_etw_add_field_value "message" v = Option.none ∧
      cs_ue_add_field_value "message" v = Option.none) := by
  refine ⟨fun s => ⟨rfl, rfl⟩, fun h => ?_, fun h => ?_⟩
  · simp [cs_etw_add_field_value, cs_ue_add_field_value, h]
  · cases v with
    | v_str s => exact absurd rfl (h s)
    | none => exact ⟨rfl, rfl⟩
    | v_u64 u => exact ⟨rfl, rfl⟩
    | v_i64 i => exact ⟨rfl, rfl⟩
    | v_u128 u => exact ⟨rfl, rfl⟩
    | v_i128 i => exact ⟨rfl, rfl⟩
    | v_f64 f => exact ⟨rfl, rfl⟩
    | v_bool b => exact ⟨rfl, rfl⟩
    | v_char c => exact ⟨rfl, rfl⟩

theorem commonSchema_message_rename_witness :
    ("other" : String) ≠ "message" ∧
    (∀ s, ValueTypes.v_bool true ≠ ValueTypes.v_str s) ∧
    cs_etw_add_field_value "message" (.v_str "hi") = some [.add_str8 "Body" "hi" .utf8] ∧
    cs_etw_add_field_value "other" (.v_u64 3) = some (cs_etw_emit "other" (.v_u64 3)) ∧
    cs_etw_add_field_value "message" (.v_bool true) = Option.none := by
  have h1 := (commonSchema_message_rename "other" (.v_u64 3)).1 "hi"
  have h2 := (commonSchema_message_rename "other" (.v_u64 3)).2.1 (by decide)
  have h3 := (commonSchema_message_rename "other" (.v_bool true)).2.2
    (fun s h => by cases h)
  refine ⟨by decide, ?_, h1.1, h2.1, h3.1⟩
  intro s h
  cases h

/-! ### Enablement filter (src/native/user_events.rs lines 149–162,
src/layer.rs `EtwFilter::callsite_enabled` lines 321–343)

The kernel-tracepoint provider keeps registered event sets keyed by
(level, keyword); each set carries its live enablement state. -/

inductive Interest where
  | always | never | sometimes
  deriving DecidableEq

/-- The kernel-tracepoint provider, abstracting
`eventheader_dynamic::Provider` to its registered event sets: an association
list from (level, keyword) to the set's live `enabled()` state. -/
structure UserEventsProvider where
  sets : List ((Nat × Nat) × Bool)

/-- `eventheader_dynamic::Provider::find_set(level, keyword)`. -/
def find_set (p : UserEventsProvider) (level keyword : Nat) : Option Bool :=
  p.sets.lookup (level, keyword)

/-- `Provider::enabled` for the user_events backend: `find_set` then the
set's state, `false` when no set is registered. -/
def ue_enabled (p : UserEventsProvider) (level keyword : Nat) : Bool :=
  match find_set p level keyword with
  | some s => s
  | Option.none => false

/-- `Provider::supports_enable_callback` for the user_events backend. -/
def ue_supports_enable_callback : Bool := false

/-- `EtwFilter::callsite_enabled` (src/layer.rs): push-callback backends
answer Always/Never from `enabled`; backends without a push callback answer
Sometimes. -/
def callsite_enabled (supportsCallback : Bool) (isEnabled : Bool) : Interest :=
  if supportsCallback then
    if isEnabled then .always else .never
  else .sometimes

/-- **C3.** On the user_events backend the callsite interest is always
`Sometimes` (no push callback), and `enabled(level, keyword)` is `false`
when no event set is registered for the pair, and the set's live state
otherwise. -/
theorem userEvents_interest_and_enabled (p : UserEventsProvider)
    (level keyword : Nat) :
    ue_supports_enable_callback = false ∧
    callsite_enabled ue_supports_enable_callback (ue_enabled p level keyword)
      = Interest.sometimes ∧
    (find_set p level keyword = Option.none → ue_enabled p level keyword = false) ∧
    (∀ b, find_set p level keyword = some b → ue_enabled p level keyword = b) := by
  refine ⟨rfl, rfl, fun h => ?_, fun b h => ?_⟩
  · simp [ue_enabled, h]
  · simp [ue_enabled, h]

theorem userEvents_interest_and_enabled_witness :
    find_set ⟨[((4, 1), true)]⟩ 4 2 = Option.none ∧
    find_set ⟨[((4, 1), true)]⟩ 4 1 = some true ∧
    callsite_enabled ue_supports_enable_callback (ue_enabled ⟨[((4, 1), true)]⟩ 4 1)
      = Interest.sometimes ∧
    ue_enabled ⟨[((4, 1), true)]⟩ 4 2 = false ∧
    ue_enabled ⟨[((4, 1), true)]⟩ 4 1 = true := by
  refine ⟨by decide, by decide, ?_, ?_, ?_⟩
  · exact (userEvents_interest_and_enabled ⟨[((4, 1), true)]⟩ 4 1).2.1
  · exact (userEvents_interest_and_enabled ⟨[((4, 1), true)]⟩ 4 2).2.2.1 (by decide)
  · exact (userEvents_interest_and_enabled ⟨[((4, 1), true)]⟩ 4 1).2.2.2 true (by decide)

/-! ### GUID attachment on native writes (src/native/etw.rs lines 193–207,
277–293 and 311–325)

`EventBuilder::write(provider, activity, related)` receives
`Some(&guid)` exactly when the corresponding id's presence byte is
nonzero. -/

/-- The activity/related argument passed to `eb.write`:
`if id[0] != 0 { Some(&guid_from(id)) } else { None }`. -/
def guidArg (idBytes : List Nat) : Option (List Nat) :=
  if idBytes.getD 0 0 ≠ 0 then some idBytes else Option.none

/-- The pair of GUID arguments for `native/etw.rs::write_record` on a
standalone event with the given current/parent span ids. -/
def writeRecordGuidArgs (current parent : Nat) :
    Option (List Nat) × Option (List Nat) :=
  (guidArg (writeRecordActivityId current),
    guidArg (mkRelatedActivityId (List.replicate 16 0) parent))

/-- **C6 counterexample.** A standalone event whose current span id is 0
(an event outside any span) is written with *no* activity GUID: the claim
that the activity GUID is always attached fails. -/
theorem writeRecord_activity_guid_not_always :
    (writeRecordGuidArgs 0 7).1 = Option.none := by decide

/-- **C6 (amended).** The native self-describing encoder attaches the
activity GUID iff the activity id's presence byte (byte 0) is nonzero, and
the related GUID iff the related id's presence byte is nonzero; for span
start/stop events the layer builds the activity id with presence byte 1, so
those always carry the activity GUID. -/
theorem guid_attachment_iff (act rel base : List Nat) (current spanId : Nat)
    (hbase : base.length = 16) :
    ((guidArg act).isSome ↔ act.getD 0 0 ≠ 0) ∧
    ((guidArg rel).isSome ↔ rel.getD 0 0 ≠ 0) ∧
    ((writeRecordGuidArgs current 0).1.isSome ↔ current ≠ 0) ∧
    (guidArg (mkSpanActivityId base spanId)).isSome = true := by
  have hiff : ∀ l : List Nat, (guidArg l).isSome ↔ l.getD 0 0 ≠ 0 := by
    intro l
    unfold guidArg
    split <;> simp_all
  refine ⟨hiff act, hiff rel, ?_, ?_⟩
  · unfold writeRecordGuidArgs
    rw [hiff]
    unfold writeRecordActivityId
    constructor
    · intro h hc
      subst hc
      simp at h
    · intro hc
      rw [if_pos hc]
      have hrepl : List.take 8 (List.replicate 16 (0 : Nat))
          = 0 :: List.replicate 7 0 := by decide
      rw [hrepl]
      simp
  · rw [hiff]
    unfold mkSpanActivityId
    have hlen8 : (base.take 8).length = 8 := by simp [hbase]
    rcases hl : base.take 8 with _ | ⟨b, rest⟩
    · rw [hl] at hlen8; simp at hlen8
    · simp

theorem guid_attachment_iff_witness :
    (List.replicate 16 0).length = 16 ∧
    ((guidArg [1, 0]).isSome ↔ ([1, 0] : List Nat).getD 0 0 ≠ 0) ∧
    ((writeRecordGuidArgs 9 0).1.isSome ↔ (9 : Nat) ≠ 0) ∧
    (guidArg (mkSpanActivityId (List.replicate 16 0) 5)).isSome = true := by
  have h := guid_attachment_iff [1, 0] [0] (List.replicate 16 0) 9 5 (by decide)
  exact ⟨by decide, h.1, h.2.2.1, h.2.2.2⟩

/-! ### Field table (src/values.rs `FieldValueIndex`, `ValueVisitor::update_value`;
src/layer.rs `on_new_span` lines 509–542)

A span's field table is a boxed slice of `FieldValueIndex`.  Slot `i` keeps
the `i`-th declared name and its current value; `sort_index` at position `i`
is the slot index of the `i`-th smallest name, so
`fields[fields[m].sort_index].field` enumerates the names in sorted order. -/

structure FieldValueIndex where
  field : String
  value : ValueTypes
  sort_index : Nat  -- `u8` in the source; every allocated table keeps it < 32

instance : Inhabited FieldValueIndex := ⟨⟨"", .none, 0⟩⟩

/-- The probe key used by `update_value`'s `binary_search_by_key` closure and
by the `sort_by_key` closure in `on_new_span`:
`fields[fields[m].sort_index as usize].field`. -/
def spanKeys (fields : List FieldValueIndex) (m : Nat) : String :=
  (fields.getD (fields.getD m default).sort_index default).field

/-- `slice::binary_search_by_key`, fuel-indexed: each iteration of the Rust
loop strictly shrinks `right - left`, so `fuel = n` iterations suffice for a
slice of length `n`.  `mid = left + (right - left) / 2`; a smaller key moves
`left` past `mid`, a greater key moves `right` to `mid`, a hit returns
`Ok(mid)`. -/
def bsearchAux (keys : Nat → String) (target : String) :
    Nat → Nat → Nat → Option Nat
  | 0, _, _ => Option.none
  | fuel + 1, left, right =>
    if left < right then
      if keys (left + (right - left) / 2) < target then
        bsearchAux keys target fuel (left + (right - left) / 2 + 1) right
      else if target < keys (left + (right - left) / 2) then
        bsearchAux keys target fuel left (left + (right - left) / 2)
      else some (left + (right - left) / 2)
    else Option.none

def binary_search_by_key (keys : Nat → String) (target : String) (n : Nat) :
    Option Nat :=
  bsearchAux keys target n 0 n

theorem bsearchAux_some {keys : Nat → String} {target : String}
    {fuel left right m : Nat}
    (h : bsearchAux keys target fuel left right = some m) :
    left ≤ m ∧ m < right ∧ keys m = target := by
  induction fuel generalizing left right with
  | zero => simp [bsearchAux] at h
  | succ fuel ih =>
    rw [bsearchAux] at h
    split at h
    case isTrue hlr =>
      set mid := left + (right - left) / 2 with hmiddef
      have hmid1 : left ≤ mid := by omega
      have hmid2 : mid < right := by omega
      split at h
      case isTrue hlt =>
        obtain ⟨ha, hb, hc⟩ := ih h
        exact ⟨by omega, hb, hc⟩
      case isFalse hlt =>
        split at h
        case isTrue hgt =>
          obtain ⟨ha, hb, hc⟩ := ih h
          exact ⟨ha, by omega, hc⟩
        case isFalse hgt =>
          obtain rfl : mid = m := by injection h
          exact ⟨hmid1, hmid2, le_antisymm (not_lt.mp hgt) (not_lt.mp hlt)⟩
    case isFalse hlr => exact absurd h (by simp)

theorem bsearchAux_finds {keys : Nat → String} {n : Nat}
    (hsort : ∀ i j, i < j → j < n → keys i < keys j)
    {target : String} {j : Nat} (hj : j < n) (hkey : keys j = target) :
    ∀ fuel left right, left ≤ j → j < right → right ≤ n → right - left ≤ fuel →
      bsearchAux keys target fuel left right = some j := by
  intro fuel
  induction fuel with
  | zero => intro left right h1 h2 _ h4; omega
  | succ fuel ih =>
    intro left right h1 h2 h3 h4
    have hlr : left < right := by omega
    rw [bsearchAux, if_pos hlr]
    set mid := left + (right - left) / 2 with hmiddef
    have hmid1 : left ≤ mid := by omega
    have hmid2 : mid < right := by omega
    by_cases hlt : keys mid < target
    · rw [if_pos hlt]
      have hmj : mid < j := by
        rcases Nat.lt_or_ge mid j with h' | h'
        · exact h'
        · rcases Nat.eq_or_lt_of_le h' with he | h''
          · rw [← he, hkey] at hlt
            exact absurd hlt (lt_irrefl _)
          · have := hsort j mid h'' (by omega)
            rw [hkey] at this
            exact absurd hlt (asymm this)
      exact ih (mid + 1) right (by omega) h2 h3 (by omega)
    · rw [if_neg hlt]
      by_cases hgt : target < keys mid
      · rw [if_pos hgt]
        have hjm : j < mid := by
          rcases Nat.lt_or_ge j mid with h' | h'
          · exact h'
          · rcases Nat.eq_or_lt_of_le h' with he | h''
            · rw [he, hkey] at hgt
              exact absurd hgt (lt_irrefl _)
            · have := hsort mid j h'' hj
              rw [hkey] at this
              exact absurd hgt (asymm this)
        exact ih left mid h1 hjm (by omega) (by omega)
      · rw [if_neg hgt]
        have he : keys mid = target := le_antisymm (not_lt.mp hgt) (not_lt.mp hlt)
        have hm : mid = j := by
          rcases Nat.lt_trichotomy mid j with h' | h' | h'
          · have := hsort mid j h' hj
            rw [he, hkey] at this
            exact absurd this (lt_irrefl _)
          · exact h'
          · have := hsort j mid h' (by omega)
            rw [he, hkey] at this
            exact absurd this (lt_irrefl _)
        rw [hm]

/-- On a strictly key-sorted table, the Rust binary search finds the unique
matching position. -/
theorem binary_search_by_key_finds {keys : Nat → String} {n : Nat}
    (hsort : ∀ i j, i < j → j < n → keys i < keys j)
    {target : String} {j : Nat} (hj : j < n) (hkey : keys j = target) :
    binary_search_by_key keys target n = some j :=
  bsearchAux_finds hsort hj hkey n 0 n (Nat.zero_le j) hj (le_refl n) (by omega)

/-- Whatever the key order, a hit always means an exact key match. -/
theorem binary_search_by_key_some {keys : Nat → String} {target : String}
    {n m : Nat} (h : binary_search_by_key keys target n = some m) :
    m < n ∧ keys m = target :=
  ⟨(bsearchAux_some h).2.1, (bsearchAux_some h).2.2⟩

/-- `ValueVisitor::update_value` (src/values.rs lines 95–106): binary-search
the sort index for the name; on a hit overwrite
`fields[fields[idx].sort_index].value`; on a miss do nothing. -/
def update_value (fields : List FieldValueIndex) (name : String)
    (value : ValueTypes) : List FieldValueIndex :=
  match binary_search_by_key (spanKeys fields) name fields.length with
  | some idx =>
    let j := (fields.getD idx default).sort_index
    fields.set j { fields.getD j default with value := value }
  | Option.none => fields

/-- `indexes[0..n]` on the fixed `[u8; 32]` array: in-range slicing takes a
prefix, an out-of-range end index panics (modelled as `none`). -/
def sliceTo (l : List Nat) (n : Nat) : Option (List Nat) :=
  if n ≤ l.length then some (l.take n) else Option.none

/-- The table as first populated by `on_new_span`: slot `i` gets the `i`-th
declared name, `ValueTypes::None`, and `sort_index = i`. -/
def allocBase (names : List String) : List FieldValueIndex :=
  (List.range names.length).map
    (fun i => { field := names.getD i "", value := .none, sort_index := i })

/-- The sorted index permutation `on_new_span` computes:
`indexes[0..n].sort_by_key(|idx| v[v[*idx as usize].sort_index as usize].field)`
(at this point `v[i].sort_index = i`, so the key of index `a` is the `a`-th
declared name). -/
def allocPerm (names : List String) : List Nat :=
  ((List.range 32).take names.length).mergeSort
    (fun a b => decide (spanKeys (allocBase names) a ≤ spanKeys (allocBase names) b))

/-- `on_new_span`'s field-table construction (src/layer.rs lines 509–542):
build the slots in declaration order, slice the 32-entry index array to the
field count (panicking beyond 32), sort it by name, and store the sorted
index back into each slot. -/
def allocSpanFields (names : List String) : Option (List FieldValueIndex) :=
  match sliceTo (List.range 32) names.length with
  | Option.none => Option.none
  | some idxs =>
    let v := allocBase names
    let sorted := idxs.mergeSort
      (fun a b => decide (spanKeys v a ≤ spanKeys v b))
    some ((List.range names.length).map
      (fun i => { field := names.getD i "", value := .none,
                  sort_index := sorted.getD i 0 }))

/-- **C10.** `on_new_span` allocates the field table without panicking for
every span declaring at most 32 fields; with more than 32 fields the
sort-index construction slices past the fixed 32-entry index array and
panics, so 32 is the upper bound on the declared field count. -/
theorem allocSpanFields_bound (names : List String) :
    (names.length ≤ 32 → (allocSpanFields names).isSome = true) ∧
    (names.length > 32 → allocSpanFields names = Option.none) := by
  constructor
  · intro h
    unfold allocSpanFields sliceTo
    rw [if_pos (by simpa using h)]
    rfl
  · intro h
    unfold allocSpanFields sliceTo
    rw [if_neg (by simpa using h)]

/-- **C8.** Updating a name that is absent from the declared field set is a
silent no-op: the table (every slot's name, value and sort index) is
returned unchanged, and no error is surfaced.  (The sort indexes of any
allocated table are in bounds; the hypothesis records that invariant.) -/
theorem update_value_unknown_noop (t : List FieldValueIndex) (name : String)
    (v : ValueTypes)
    (hidx : ∀ f ∈ t, f.sort_index < t.length)
    (habs : ∀ f ∈ t, f.field ≠ name) :
    update_value t name v = t := by
  unfold update_value
  cases hbs : binary_search_by_key (spanKeys t) name t.length with
  | none => rfl
  | some m =>
    exfalso
    obtain ⟨hm, hkey⟩ := binary_search_by_key_some hbs
    have h1 : t.getD m default ∈ t := by
      rw [List.getD_eq_getElem _ _ hm]
      exact List.getElem_mem hm
    have h2 : (t.getD m default).sort_index < t.length := hidx _ h1
    have h3 : t.getD (t.getD m default).sort_index default ∈ t := by
      rw [List.getD_eq_getElem _ _ h2]
      exact List.getElem_mem h2
    exact habs _ h3 hkey

theorem update_value_unknown_noop_witness :
    (∀ f ∈ [({ field := "a", value := .none, sort_index := 0 } : FieldValueIndex)],
      f.sort_index < 1) ∧
    (∀ f ∈ [({ field := "a", value := .none, sort_index := 0 } : FieldValueIndex)],
      f.field ≠ "b") ∧
    update_value [{ field := "a", value := .none, sort_index := 0 }] "b" (.v_u64 7)
      = [{ field := "a", value := .none, sort_index := 0 }] := by
  refine ⟨?_, ?_, ?_⟩
  · intro f hf
    simp at hf
    rw [hf]
    decide
  · intro f hf
    simp at hf
    rw [hf]
    decide
  · exact update_value_unknown_noop _ "b" (.v_u64 7)
      (by intro f hf; simp at hf; rw [hf]; decide)
      (by intro f hf; simp at hf; rw [hf]; decide)

theorem allocSpanFields_bound_witness :
    (List.replicate 32 "").length ≤ 32 ∧ (List.replicate 33 "").length > 33 - 1 ∧
    (allocSpanFields (List.replicate 32 "")).isSome = true ∧
    allocSpanFields (List.replicate 33 "") = Option.none :=
  ⟨by simp, by simp,
    (allocSpanFields_bound (List.replicate 32 "")).1 (by simp),
    (allocSpanFields_bound (List.replicate 33 "")).2 (by simp)⟩

/-! ### Allocation facts -/

theorem allocBase_getD (names : List String) (i : Nat) (h : i < names.length) :
    (allocBase names).getD i default
      = { field := names.getD i "", value := .none, sort_index := i } := by
  unfold allocBase
  rw [List.getD_eq_getElem _ _ (by simpa using h), List.getElem_map,
    List.getElem_range]

theorem spanKeys_allocBase (names : List String) (a : Nat) (h : a < names.length) :
    spanKeys (allocBase names) a = names.getD a "" := by
  unfold spanKeys
  rw [allocBase_getD names a h]
  rw [show ({ field := names.getD a "", value := .none, sort_index := a }
      : FieldValueIndex).sort_index = a from rfl]
  rw [allocBase_getD names a h]

theorem take_range_32 (n : Nat) (hn : n ≤ 32) :
    (List.range 32).take n = List.range n := by
  rw [List.take_range]
  congr 1
  omega

theorem allocPerm_perm (names : List String) (hn : names.length ≤ 32) :
    (allocPerm names).Perm (List.range names.length) := by
  unfold allocPerm
  rw [take_range_32 _ hn]
  exact List.mergeSort_perm _ _

theorem allocPerm_length (names : List String) (hn : names.length ≤ 32) :
    (allocPerm names).length = names.length := by
  rw [(allocPerm_perm names hn).length_eq, List.length_range]

theorem allocPerm_getD_lt (names : List String) (hn : names.length ≤ 32)
    (m : Nat) (hm : m < names.length) :
    (allocPerm names).getD m 0 < names.length := by
  have hl := allocPerm_length names hn
  have hmem : (allocPerm names).getD m 0 ∈ allocPerm names := by
    rw [List.getD_eq_getElem _ _ (by omega)]
    exact List.getElem_mem _
  exact List.mem_range.mp ((allocPerm_perm names hn).mem_iff.mp hmem)

theorem allocPerm_sorted (names : List String) :
    List.Pairwise
      (fun a b => spanKeys (allocBase names) a ≤ spanKeys (allocBase names) b)
      (allocPerm names) := by
  have h := @List.sorted_mergeSort Nat
    (fun a b => decide (spanKeys (allocBase names) a ≤ spanKeys (allocBase names) b))
    (fun a b c hab hbc => by
      simp only [decide_eq_true_eq] at *
      exact le_trans hab hbc)
    (fun a b => by
      simp only [Bool.or_eq_true, decide_eq_true_eq]
      exact le_total _ _)
    ((List.range 32).take names.length)
  exact h.imp (fun hab => by simpa using hab)

/-- The field table as allocated by `on_new_span` (the value `allocSpanFields`
returns when the declared field count is within bounds). -/
def allocTable (names : List String) : List FieldValueIndex :=
  (List.range names.length).map
    (fun i => { field := names.getD i "", value := .none,
                sort_index := (allocPerm names).getD i 0 })

theorem allocSpanFields_eq (names : List String) (hn : names.length ≤ 32) :
    allocSpanFields names = some (allocTable names) := by
  unfold allocSpanFields sliceTo allocTable allocPerm
  rw [if_pos (by simpa using hn)]

theorem allocTable_getD (names : List String) (i : Nat) (h : i < names.length) :
    (allocTable names).getD i default
      = { field := names.getD i "", value := .none,
          sort_index := (allocPerm names).getD i 0 } := by
  unfold allocTable
  rw [List.getD_eq_getElem _ _ (by simpa using h), List.getElem_map,
    List.getElem_range]

/-! ### The table invariant

Only values ever mutate after allocation: the names and the sort indexes of
every slot stay exactly as `on_new_span` wrote them. -/

structure TableWF (names : List String) (t : List FieldValueIndex) : Prop where
  len : t.length = names.length
  fieldEq : ∀ i, i < names.length → (t.getD i default).field = names.getD i ""
  sortEq : ∀ i, i < names.length →
    (t.getD i default).sort_index = (allocPerm names).getD i 0

theorem allocTable_wf (names : List String) : TableWF names (allocTable names) :=
  ⟨by simp [allocTable],
    fun i h => by rw [allocTable_getD names i h],
    fun i h => by rw [allocTable_getD names i h]⟩

theorem spanKeys_wf {names : List String} {t : List FieldValueIndex}
    (hwf : TableWF names t) (hn : names.length ≤ 32) (m : Nat)
    (hm : m < names.length) :
    spanKeys t m = names.getD ((allocPerm names).getD m 0) "" := by
  unfold spanKeys
  rw [hwf.sortEq m hm]
  exact hwf.fieldEq _ (allocPerm_getD_lt names hn m hm)

theorem spanKeys_strict {names : List String} {t : List FieldValueIndex}
    (hn : names.length ≤ 32) (hnd : names.Nodup) (hwf : TableWF names t) :
    ∀ i j, i < j → j < t.length → spanKeys t i < spanKeys t j := by
  intro i j hij hj
  rw [hwf.len] at hj
  have hi : i < names.length := by omega
  rw [spanKeys_wf hwf hn i hi, spanKeys_wf hwf hn j hj]
  have hl := allocPerm_length names hn
  have hpi : (allocPerm names).getD i 0 < names.length :=
    allocPerm_getD_lt names hn i hi
  have hpj : (allocPerm names).getD j 0 < names.length :=
    allocPerm_getD_lt names hn j hj
  have hpair := (List.pairwise_iff_getElem.mp (allocPerm_sorted names))
    i j (by omega) (by omega) hij
  rw [← List.getD_eq_getElem (allocPerm names) 0 (show i < (allocPerm names).length by omega),
    ← List.getD_eq_getElem (allocPerm names) 0 (show j < (allocPerm names).length by omega)] at hpair
  rw [spanKeys_allocBase _ _ hpi, spanKeys_allocBase _ _ hpj] at hpair
  have hnodup : (allocPerm names).Nodup :=
    ((allocPerm_perm names hn).nodup_iff).mpr (List.nodup_range _)
  have hne : (allocPerm names).getD i 0 ≠ (allocPerm names).getD j 0 := by
    rw [List.getD_eq_getElem _ _ (show i < (allocPerm names).length by omega),
      List.getD_eq_getElem _ _ (show j < (allocPerm names).length by omega)]
    intro he
    exact absurd (hnodup.getElem_inj_iff.mp he) (by omega)
  refine lt_of_le_of_ne hpair ?_
  intro he
  apply hne
  rw [List.getD_eq_getElem names "" hpi, List.getD_eq_getElem names "" hpj] at he
  exact hnd.getElem_inj_iff.mp he

theorem getD_set_lt {t : List FieldValueIndex} {i k : Nat} {a : FieldValueIndex}
    (hk : k < t.length) :
    (t.set i a).getD k default = if i = k then a else t.getD k default := by
  rw [List.getD_eq_getElem _ _ (by simpa using hk), List.getElem_set]
  split
  · rfl
  · rw [List.getD_eq_getElem _ _ hk]

/-- On any table retaining the allocation's names and sort indexes, updating
a declared name overwrites exactly that name's slot value and nothing
else. -/
theorem update_value_found (names : List String) (t : List FieldValueIndex)
    (hn : names.length ≤ 32) (hnd : names.Nodup) (hwf : TableWF names t)
    (i : Nat) (hi : i < names.length) (v : ValueTypes) :
    update_value t (names.getD i "") v
      = t.set i { field := names.getD i "", value := v,
                  sort_index := (allocPerm names).getD i 0 } := by
  have hl := allocPerm_length names hn
  have hmem : i ∈ allocPerm names :=
    (allocPerm_perm names hn).mem_iff.mpr (List.mem_range.mpr hi)
  obtain ⟨j, hjl, hji⟩ := List.getElem_of_mem hmem
  have hjn : j < names.length := by omega
  have hjD : (allocPerm names).getD j 0 = i := by
    rw [List.getD_eq_getElem _ _ hjl]
    exact hji
  have hkey : spanKeys t j = names.getD i "" := by
    rw [spanKeys_wf hwf hn j hjn, hjD]
  have hbs : binary_search_by_key (spanKeys t) (names.getD i "") t.length = some j :=
    binary_search_by_key_finds
      (fun a b hab hb => spanKeys_strict hn hnd hwf a b hab hb)
      (by rw [hwf.len]; exact hjn) hkey
  unfold update_value
  rw [hbs]
  simp only [hwf.sortEq j hjn, hjD]
  have hslot : { (t.getD i default) with value := v }
      = ({ field := names.getD i "", value := v,
           sort_index := (allocPerm names).getD i 0 } : FieldValueIndex) := by
    have hf := hwf.fieldEq i hi
    have hs := hwf.sortEq i hi
    cases ht : t.getD i default with
    | mk f val s =>
      rw [ht] at hf hs
      simp only at hf hs
      simp [hf, hs]
  rw [hslot]

theorem tableWF_set (names : List String) (t : List FieldValueIndex)
    (hwf : TableWF names t) (i : Nat) (_hi : i < names.length) (v : ValueTypes) :
    TableWF names (t.set i
      { field := names.getD i "", value := v,
        sort_index := (allocPerm names).getD i 0 }) := by
  refine ⟨by simp [hwf.len], ?_, ?_⟩
  · intro k hk
    rw [getD_set_lt (by rw [hwf.len]; exact hk)]
    split
    case isTrue h => rw [← h]
    case isFalse h => exact hwf.fieldEq k hk
  · intro k hk
    rw [getD_set_lt (by rw [hwf.len]; exact hk)]
    split
    case isTrue h => rw [← h]
    case isFalse h => exact hwf.sortEq k hk

/-- `values.record(&mut ValueVisitor { fields })` for a record set: one
`update_value` per recorded (declared-index, value) pair, in the given
order. -/
def applyUpdates (names : List String) (vals : List ValueTypes)
    (t : List FieldValueIndex) (order : List Nat) : List FieldValueIndex :=
  order.foldl
    (fun acc i => update_value acc (names.getD i "") (vals.getD i .none)) t

theorem applyUpdates_spec (names : List String) (vals : List ValueTypes)
    (hn : names.length ≤ 32) (hnd : names.Nodup) :
    ∀ order : List Nat, (∀ i ∈ order, i < names.length) →
      ∀ t, TableWF names t →
        TableWF names (applyUpdates names vals t order) ∧
        ∀ j, j < names.length →
          (applyUpdates names vals t order).getD j default
            = if j ∈ order
              then { field := names.getD j "", value := vals.getD j .none,
                     sort_index := (allocPerm names).getD j 0 }
              else t.getD j default := by
  intro order
  induction order with
  | nil =>
    intro _ t hwf
    exact ⟨hwf, fun j _ => by simp [applyUpdates]⟩
  | cons i rest ih =>
    intro hmem t hwf
    have hi : i < names.length := hmem i (by simp)
    have hrest : ∀ a ∈ rest, a < names.length := fun a ha => hmem a (by simp [ha])
    have hstep : applyUpdates names vals t (i :: rest)
        = applyUpdates names vals
            (t.set i { field := names.getD i "", value := vals.getD i .none,
                       sort_index := (allocPerm names).getD i 0 }) rest := by
      unfold applyUpdates
      rw [List.foldl_cons, update_value_found names t hn hnd hwf i hi _]
    have hwf' : TableWF names
        (t.set i { field := names.getD i "", value := vals.getD i .none,
                   sort_index := (allocPerm names).getD i 0 }) :=
      tableWF_set names t hwf i hi _
    obtain ⟨hwfr, hval⟩ := ih hrest _ hwf'
    rw [hstep]
    refine ⟨hwfr, ?_⟩
    intro j hj
    rw [hval j hj]
    by_cases hjr : j ∈ rest
    · simp [hjr]
    · rw [if_neg hjr, getD_set_lt (by rw [hwf.len]; exact hj)]
      by_cases hij : i = j
      · subst hij
        simp [List.mem_cons]
      · have hnotin : j ∉ (i :: rest) := by
          simp [List.mem_cons, hjr, Ne.symm hij]
        rw [if_neg hij, if_neg hnotin]

/-- **C2.** For every sequence of distinct declared field names (within the
32-field allocation bound), allocating the table and then updating each
declared name once, in any update order, makes iteration in declaration
order yield exactly the values set, in the original declaration order. -/
theorem fieldTable_roundtrip (names : List String) (vals : List ValueTypes)
    (order : List Nat) (hnd : names.Nodup) (hn : names.length ≤ 32)
    (hv : vals.length = names.length)
    (hord : order.Perm (List.range names.length)) :
    allocSpanFields names = some (allocTable names) ∧
    (applyUpdates names vals (allocTable names) order).map
        (fun f => (f.field, f.value))
      = names.zip vals := by
  refine ⟨allocSpanFields_eq names hn, ?_⟩
  have hmemo : ∀ i ∈ order, i < names.length := fun i hi =>
    List.mem_range.mp (hord.mem_iff.mp hi)
  obtain ⟨hwfr, hval⟩ :=
    applyUpdates_spec names vals hn hnd order hmemo (allocTable names)
      (allocTable_wf names)
  apply List.ext_getElem
  · simp [hwfr.len, List.length_zip, hv]
  · intro k h1 h2
    have hk : k < names.length := by
      rw [List.length_map, hwfr.len] at h1
      exact h1
    have hkin : k ∈ order := hord.mem_iff.mpr (List.mem_range.mpr hk)
    have hfin : (applyUpdates names vals (allocTable names) order).getD k default
        = { field := names.getD k "", value := vals.getD k .none,
            sort_index := (allocPerm names).getD k 0 } := by
      rw [hval k hk, if_pos hkin]
    rw [List.getElem_map, List.getElem_zip]
    rw [← List.getD_eq_getElem
      (applyUpdates names vals (allocTable names) order) default
      (by rw [hwfr.len]; exact hk), hfin]
    rw [List.getD_eq_getElem names "" hk] at hfin ⊢
    rw [show vals.getD k ValueTypes.none = vals[k] from
      List.getD_eq_getElem vals ValueTypes.none (by omega)]

theorem fieldTable_roundtrip_witness :
    (["b", "a"] : List String).Nodup ∧
    ([(1 : Nat), 0] : List Nat).Perm (List.range 2) ∧
    allocSpanFields ["b", "a"] = some (allocTable ["b", "a"]) ∧
    (applyUpdates ["b", "a"] [.v_u64 1, .v_str "x"] (allocTable ["b", "a"])
        [1, 0]).map (fun f => (f.field, f.value))
      = (["b", "a"] : List String).zip [ValueTypes.v_u64 1, ValueTypes.v_str "x"] := by
  have h := fieldTable_roundtrip ["b", "a"] [.v_u64 1, .v_str "x"] [1, 0]
    (by decide) (by decide) (by decide) (by decide)
  exact ⟨by decide, by decide, h.1, h.2⟩

/-! ### Provider registry (src/providerwrapper.rs)

src/ contains only the registry declaration —
`PROVIDER_CACHE: ShardedLock<HashMap<String, Pin<Arc<ProviderWrapper>>>>` —
not `get_or_create` itself, so the lookup algorithm is modelled from the
spec (§4.4): optimistic read under the shared lock; on miss, take the
exclusive lock, re-check, and only then register natively and insert. -/

/-- Modelled from the spec: the registry state for one fixed provider name.
`cache` is that name's map entry (`none` = absent), `regCount` counts native
registration calls, and a handle is identified by the registration that
produced it (two callers hold the same `Arc` exactly when their handle ids
are equal). -/
structure RegState where
  cache : Option Nat
  regCount : Nat

/-- Modelled from the spec: one caller's position inside `get_or_create`. -/
inductive ThreadPC where
  | start
  | needLock
  | done (handle : Nat)

/-- Modelled from the spec: one interleaved step of N threads each running
`get_or_create` for the same name.  The whole exclusive-lock critical
section (re-check, native registration, insert) is a single atomic step —
that atomicity is exactly what holding the write lock guarantees. -/
inductive RegStep (N : Nat) :
    RegState × (Nat → ThreadPC) → RegState × (Nat → ThreadPC) → Prop where
  | readHit (t h : Nat) (s : RegState) (pcs : Nat → ThreadPC) :
      t < N → pcs t = .start → s.cache = some h →
      RegStep N (s, pcs) (s, fun u => if u = t then .done h else pcs u)
  | readMiss (t : Nat) (s : RegState) (pcs : Nat → ThreadPC) :
      t < N → pcs t = .start → s.cache = Option.none →
      RegStep N (s, pcs) (s, fun u => if u = t then .needLock else pcs u)
  | lockedRecheckHit (t h : Nat) (s : RegState) (pcs : Nat → ThreadPC) :
      t < N → pcs t = .needLock → s.cache = some h →
      RegStep N (s, pcs) (s, fun u => if u = t then .done h else pcs u)
  | lockedRegister (t : Nat) (s : RegState) (pcs : Nat → ThreadPC) :
      t < N → pcs t = .needLock → s.cache = Option.none →
      RegStep N (s, pcs)
        (⟨some s.regCount, s.regCount + 1⟩,
          fun u => if u = t then .done s.regCount else pcs u)

/-- Reachability from the initial state: empty cache, no registrations,
every thread about to call `get_or_create`. -/
inductive RegReach (N : Nat) : RegState × (Nat → ThreadPC) → Prop where
  | init : RegReach N (⟨Option.none, 0⟩, fun _ => .start)
  | step {c c' : RegState × (Nat → ThreadPC)} :
      RegReach N c → RegStep N c c' → RegReach N c'

def RegInv (c : RegState × (Nat → ThreadPC)) : Prop :=
  (c.1.cache = Option.none → c.1.regCount = 0) ∧
  (∀ h, c.1.cache = some h → c.1.regCount = 1 ∧ h = 0) ∧
  (∀ t h, c.2 t = .done h → c.1.cache = some h)

theorem regInv_of_reach {N : Nat} {c : RegState × (Nat → ThreadPC)}
    (hr : RegReach N c) : RegInv c := by
  induction hr with
  | init =>
    refine ⟨fun _ => rfl, fun h hc => by simp at hc, fun t h ht => ?_⟩
    exact ThreadPC.noConfusion ht
  | step _ha hstep ih =>
    cases hstep with
    | readHit t h s pcs htN hpc hc =>
      refine ⟨ih.1, ih.2.1, ?_⟩
      intro u h' hu
      by_cases he : u = t
      · subst he
        simp at hu
        rw [← hu]
        exact hc
      · simp [he] at hu
        exact ih.2.2 u h' hu
    | readMiss t s pcs htN hpc hc =>
      refine ⟨ih.1, ih.2.1, ?_⟩
      intro u h' hu
      by_cases he : u = t
      · subst he
        simp at hu
      · simp [he] at hu
        exact ih.2.2 u h' hu
    | lockedRecheckHit t h s pcs htN hpc hc =>
      refine ⟨ih.1, ih.2.1, ?_⟩
      intro u h' hu
      by_cases he : u = t
      · subst he
        simp at hu
        rw [← hu]
        exact hc
      · simp [he] at hu
        exact ih.2.2 u h' hu
    | lockedRegister t s pcs htN hpc hc =>
      have h0 : s.regCount = 0 := ih.1 hc
      refine ⟨fun hcn => by simp at hcn, ?_, ?_⟩
      · intro h' hch
        simp at hch
        constructor
        · simp [h0]
        · omega
      · intro u h' hu
        by_cases he : u = t
        · subst he
          simp at hu
          simp [← hu]
        · simp [he] at hu
          have := ih.2.2 u h' hu
          rw [hc] at this
          exact Option.noConfusion this

/-- **C7.** (Modelled from the spec.)  If N > 0 threads concurrently run
`get_or_create` for the same name and all reach completion, then exactly one
native registration has happened and every caller holds the same underlying
handle. -/
theorem registry_single_creation (N : Nat) (hN : 0 < N)
    (s : RegState) (pcs : Nat → ThreadPC)
    (hreach : RegReach N (s, pcs))
    (hdone : ∀ t, t < N → ∃ h, pcs t = .done h) :
    s.regCount = 1 ∧
    ∀ t t' h h', t < N → t' < N → pcs t = .done h → pcs t' = .done h' →
      h = h' := by
  have hinv := regInv_of_reach hreach
  obtain ⟨h0, hpc0⟩ := hdone 0 hN
  have hc : s.cache = some h0 := hinv.2.2 0 h0 hpc0
  refine ⟨(hinv.2.1 h0 hc).1, ?_⟩
  intro t t' h h' _ _ hth ht'h'
  have h1 := hinv.2.2 t h hth
  have h2 := hinv.2.2 t' h' ht'h'
  rw [hc] at h1 h2
  have e1 : h0 = h := Option.some.inj h1
  have e2 : h0 = h' := Option.some.inj h2
  omega

/-- A concrete 2-thread interleaving: thread 0 read-misses, registers under
the exclusive lock; thread 1 then read-hits. -/
def regDemoFinal : Nat → ThreadPC :=
  fun u => if u = 1 then .done 0
    else if u = 0 then .done 0
    else if u = 0 then .needLock
    else .start

theorem registry_single_creation_witness :
    RegReach 2 (⟨some 0, 1⟩, regDemoFinal) ∧
    (∀ t, t < 2 → ∃ h, regDemoFinal t = .done h) ∧
    ((⟨some 0, 1⟩ : RegState).regCount = 1 ∧
      ∀ t t' h h', t < 2 → t' < 2 → regDemoFinal t = .done h →
        regDemoFinal t' = .done h' → h = h') := by
  have hreach : RegReach 2 (⟨some 0, 1⟩, regDemoFinal) := by
    apply RegReach.step
      (RegReach.step
        (RegReach.step (@RegReach.init 2)
          (RegStep.readMiss 0 ⟨Option.none, 0⟩ (fun _ => .start)
            (by omega) rfl rfl))
        (RegStep.lockedRegister 0 ⟨Option.none, 0⟩ _ (by omega) rfl rfl))
    exact RegStep.readHit 1 0 ⟨some 0, 1⟩ _ (by omega) rfl rfl
  have hdone : ∀ t, t < 2 → ∃ h, regDemoFinal t = .done h := by
    intro t ht
    interval_cases t
    · exact ⟨0, rfl⟩
    · exact ⟨0, rfl⟩
  exact ⟨hreach, hdone,
    registry_single_creation 2 (by omega) ⟨some 0, 1⟩ regDemoFinal hreach hdone⟩

end TracingEtw
